import Mathlib

/-!
Verification of the CLQO solver core (src/LPSolver.cpp).

The development shallowly embeds the pieces of LPSolver.cpp that the
specification talks about:

* the packed index mapper between unordered pairs of QP variables and
  LP variables (LPSolver::getLPVar, LPSolver::getQPVars);
* the submatrix builder (LPSolver::getSubmatrix) over the current
  relaxation point, together with a positive-semidefiniteness-within-
  tolerance predicate stated as nonnegativity of the quadratic form of
  the tolerance-shifted matrix (for a symmetric real matrix this is
  equivalent to all eigenvalues being at least the negated tolerance,
  which is exactly the check the C++ code performs on the output of
  Eigen's SelfAdjointEigenSolver);
* the growth-then-shrink separation procedure (LPSolver::nonPSDcore),
  parameterised by the PSD check as a boolean oracle on index lists
  (Eigen's eigensolver is an external numerical library) and by the
  order in which std::random_shuffle makes the pool of rows be popped;
* the constructor's initial upper bound and the problem evaluator
  (class Problem is external to the repository; its evaluator is
  modelled from the spec);
* the randomised-rounding fallback (LPSolver::roundToSol), with the
  Cholesky factor and the Gaussian draws as abstract inputs;
* the solution extraction of the COMPLETE path and the C lround
  rounding it uses;
* the non-binding-row pruning loop of LPSolver::solve;
* the control skeleton of LPSolver::solve as a step function on an
  orchestrator state, with the emptiness of the separation core and of
  the generated cut (LPSolver::findConstraint is not part of the
  reviewed source file) as boolean oracle streams.

Machine integers are modelled as Nat: the quantities involved (indices
bounded by n*(n-1)/2 for practical n) stay far below 2^32, and the
spec's round-trip contract is about exact arithmetic.  The C++
expression floor(sqrt(2*v) + 1/2) is embedded as
(Nat.sqrt (8*v) + 1) / 2: for a natural k, k <= sqrt(2v) + 1/2 iff
(2k-1)^2 <= 8v iff 2k-1 <= Nat.sqrt (8v) iff k <= (Nat.sqrt (8v)+1)/2;
the lemma floor_sqrt_two_mul_add_half below proves this equivalence
against the real-number formula.
-/

namespace CLQO

/-- Constant PSD_EIGEN_TOL from LPSolver.cpp (0.00001), as an exact rational. -/
def PSD_EIGEN_TOL : ℚ := 1 / 100000

/-- Constant MAX_TRIES_ROUNDING from LPSolver.cpp. -/
def MAX_TRIES_ROUNDING : ℕ := 20

/-- Constant CONSTRAINT_FAIL_LIMIT from LPSolver.cpp. -/
def CONSTRAINT_FAIL_LIMIT : ℕ := 5

/-- Constant CONSTRAINT_REMOVAL_SLACK from LPSolver.cpp (0.99), as an exact rational. -/
def CONSTRAINT_REMOVAL_SLACK : ℚ := 99 / 100

/-- Embedding of LPSolver::getLPVar (lines 72-77).  Given QP variables x and
y it returns the 1-based packed LP variable index.  The three guards mirror
the source: a self pair throws, reversed arguments recurse with the
arguments swapped, and an index at or above nQP throws. -/
def getLPVar (n x y : ℕ) : Except String ℕ :=
  if y = x then Except.error ("Bad LP: " ++ toString x ++ ", " ++ toString y)
  else if h : x < y then getLPVar n y x
  else if n ≤ y ∨ n ≤ x then
    Except.error ("Bad LP: " ++ toString x ++ ", " ++ toString y ++ ", " ++ toString n)
  else Except.ok (1 + y + x * (x - 1) / 2)
termination_by (if x < y then 1 else 0)
decreasing_by
  simp only [if_pos h, if_neg (Nat.lt_asymm h)]
  exact Nat.zero_lt_one

/-- Embedding of LPSolver::getQPVars (lines 80-89).  Given a 1-based packed
LP variable index v it recovers the QP pair (x, y) with y < x.  The real
sqrt expression floor(sqrt(2*v) + 1/2) of the source is written with
Nat.sqrt as (Nat.sqrt (8*v) + 1) / 2 (see floor_sqrt_two_mul_add_half). -/
def getQPVars (n v : ℕ) : Except String (ℕ × ℕ) :=
  if n * (n - 1) / 2 < v then
    Except.error ("Bad vQP: " ++ toString v ++ ", " ++ toString (n * (n - 1) / 2))
  else
    let x : ℕ := (Nat.sqrt (8 * v) + 1) / 2
    let y : ℕ := v - 1 - x * (x - 1) / 2
    if x ≤ y then
      Except.error ("Bad QP: " ++ toString x ++ ", " ++ toString y ++ ", " ++ toString v)
    else Except.ok (x, y)

/-- Predicate telling whether an Except value is an error; the index mapper
signals invalid indices through Except.error. -/
def isError {ε α : Type} (e : Except ε α) : Bool :=
  match e with
  | Except.error _ => true
  | Except.ok _ => false

/-- Modelled from the spec: class Problem is external to the repository
(only its use sites appear in LPSolver.cpp).  It carries n binary
variables, a symmetric pairwise coefficient structure, a constant offset,
and an evaluator; n is passed separately below. -/
structure QProblem where
  constantTerm : ℚ
  coeffs : ℕ → ℕ → ℚ

/-- Modelled from the spec: the evaluator Problem::score maps a sign
vector s to constantTerm + sum over pairs i < j of coeffs(i,j)*s_i*s_j. -/
def score (n : ℕ) (p : QProblem) (s : ℕ → ℚ) : ℚ :=
  p.constantTerm +
    ∑ i in Finset.range n, ∑ j in Finset.Ico (i + 1) n, p.coeffs i j * s i * s j

/-- Embedding of the initial upper bound computed by the constructor
LPSolver::LPSolver (lines 34-40): constantTerm plus the sum of the
absolute values of all pairwise coefficients with i < j. -/
def initUpperBound (n : ℕ) (p : QProblem) : ℚ :=
  p.constantTerm +
    ∑ i in Finset.range n, ∑ j in Finset.Ico (i + 1) n, |p.coeffs i j|

/-- Concrete problem instance used by the bound-validity witness. -/
def boundWitnessProblem : QProblem :=
  { constantTerm := 0, coeffs := fun _ _ => 1 }

/-- Concrete sign vector used by the bound-validity witness. -/
def boundWitnessSign : ℕ → ℚ := fun _ => -1

/-- Embedding of the 0-based LP array subscript that the source forms as
currSol[getLPVar(a,b)-1] for distinct a and b, namely
min + max*(max-1)/2 (see getLPVar_eq_lpIdx0 below). -/
def lpIdx0 (a b : ℕ) : ℕ := min a b + max a b * (max a b - 1) / 2

/-- Embedding of the C library lround function on exact rationals:
round to nearest, halfway cases away from zero. -/
def lround (x : ℚ) : ℤ := if 0 ≤ x then ⌊x + 1 / 2⌋ else -⌊-x + 1 / 2⌋

/-- Embedding of the COMPLETE-path solution extraction of LPSolver::solve
(lines 365-370): bestSol(0) = 1 and, for i in 1..n-1,
bestSol(i) = lround(currSol[getLPVar(0,i)-1]). -/
def completeBestSol (sol : ℕ → ℚ) : ℕ → ℚ :=
  fun i => if i = 0 then 1 else ((lround (sol (lpIdx0 0 i)) : ℤ) : ℚ)

/-- Row of the linear program as seen by the pruning loop of
LPSolver::solve (lines 322-330): its primal value glp_get_row_prim and
its lower bound glp_get_row_lb. -/
structure LPRow where
  prim : ℚ
  lb : ℚ
deriving DecidableEq

/-- Embedding of the row-pruning loop of LPSolver::solve (lines 322-330).
The source walks the rows downward deleting row i whenever
glp_get_row_prim(i) - glp_get_row_lb(i) > CONSTRAINT_REMOVAL_SLACK;
since each original row is visited exactly once, the surviving rows are
the ordered filter below. -/
def pruneRows : List LPRow → List LPRow
  | [] => []
  | r :: rest =>
    if CONSTRAINT_REMOVAL_SLACK < r.prim - r.lb then pruneRows rest
    else r :: pruneRows rest

/-- Embedding of LPSolver::getSubmatrix (lines 172-183): the symmetric
correlation submatrix induced by a list of row indices, with unit
diagonal and currSol[getLPVar(rows[i],rows[j])-1] off the diagonal. -/
def getSubmatrix (sol : ℕ → ℚ) (rows : List ℕ) :
    Matrix (Fin rows.length) (Fin rows.length) ℚ :=
  Matrix.of fun i j => if i = j then 1 else sol (lpIdx0 (rows.get i) (rows.get j))

/-- Positive semidefiniteness within a tolerance, phrased as nonnegativity
of the quadratic form of the tolerance-shifted matrix.  For a symmetric
real matrix A this holds iff every eigenvalue of A is at least -tol,
which is exactly the check LPSolver::nonPSDcore performs on the
eigenvalues reported by Eigen's SelfAdjointEigenSolver. -/
def PSDwithin (tol : ℚ) {k : ℕ} (A : Matrix (Fin k) (Fin k) ℚ) : Prop :=
  ∀ u : Fin k → ℚ, 0 ≤ Matrix.dotProduct u ((A + tol • 1).mulVec u)

/-- Embedding of the growth phase of LPSolver::nonPSDcore (lines 111-142),
parameterised by the PSD check as a boolean oracle on index lists (the
eigensolver is external numerical code) and by the pool of rows listed in
the order std::random_shuffle makes them be popped.  The accumulated core
is returned as soon as the check fails; none signals that the pool was
exhausted with the check still passing (the source then clears the core
and returns the empty vector). -/
def growPhase (psd : List ℕ → Bool) : List ℕ → List ℕ → Option (List ℕ)
  | _, [] => none
  | core, r :: rest =>
    if psd (core ++ [r]) = true then growPhase psd (core ++ [r]) rest
    else some (core ++ [r])

/-- Embedding of the shrink phase of LPSolver::nonPSDcore (lines 144-167):
core.size() iterations; each removes the front row, rechecks the oracle,
and reinserts the row at the back when the reduced set passes the check
(the removed row was essential to the violation). -/
def shrinkPhase (psd : List ℕ → Bool) : ℕ → List ℕ → List ℕ
  | 0, core => core
  | _ + 1, [] => []
  | k + 1, r :: rest =>
    if psd rest = true then shrinkPhase psd k (rest ++ [r])
    else shrinkPhase psd k rest

/-- Embedding of LPSolver::nonPSDcore (lines 98-170): grow until the check
fails, then shrink to an inclusion-minimal core; return the empty list
when the full matrix passes the check. -/
def nonPSDcore (psd : List ℕ → Bool) (order : List ℕ) : List ℕ :=
  match growPhase psd [] order with
  | none => []
  | some core => shrinkPhase psd core.length core

/-- Concrete relaxation point used by the oracle witnesses: every pairwise
value equals 2, so every induced submatrix of size at least 2 fails the
PSD check while sizes 0 and 1 pass it. -/
def oracleWitnessSol : ℕ → ℚ := fun _ => 2

/-- Concrete PSD oracle matching oracleWitnessSol: a list passes iff it has
at most one element. -/
def oracleWitnessPsd : List ℕ → Bool := fun S => decide (S.length ≤ 1)

/-- Concrete pop order used by the oracle witnesses (n = 2). -/
def oracleWitnessOrder : List ℕ := [0, 1]

/-- Relaxation state of the solver: the best integral solution, the two
bounds, and the current relaxation point (LPSolver fields bestSol,
lowerBound, upperBound, currSol). -/
structure SolverState where
  bestSol : ℕ → ℚ
  lowerBound : ℚ
  upperBound : ℚ
  currSol : ℕ → ℚ

/-- Embedding of std::copysign(1.0, x) as used on line 246: the sign of x,
with +1 for nonnegative x. -/
def signRound (x : ℚ) : ℚ := if x < 0 then -1 else 1

/-- Embedding of one rounding trial of LPSolver::roundToSol (lines
233-253): the Gaussian draw has its first coordinate replaced by its
absolute value, is projected through the Cholesky factor L, and is then
rounded coordinatewise to signs.  L and the draw are abstract inputs
because both arise from floating-point numerics. -/
def roundCandidate (n : ℕ) (L : Matrix (Fin n) (Fin n) ℚ) (v : Fin n → ℚ) : ℕ → ℚ :=
  fun i =>
    if h : i < n then
      signRound (L.mulVec (fun j => if (j : ℕ) = 0 then |v j| else v j) ⟨i, h⟩)
    else 1

/-- The scores printed by the trial loop of LPSolver::roundToSol: one
evaluator score per trial, MAX_TRIES_ROUNDING trials. -/
def roundTrials (n : ℕ) (p : QProblem) (L : Matrix (Fin n) (Fin n) ℚ)
    (draws : ℕ → Fin n → ℚ) : List ℚ :=
  (List.range MAX_TRIES_ROUNDING).map fun t => score n p (roundCandidate n L (draws t))

/-- Embedding of LPSolver::roundToSol (lines 206-255) as an explicit state
transformer: it reads the relaxation state, evaluates and reports one
score per randomized trial, and writes none of the solver fields. -/
def roundToSol (n : ℕ) (p : QProblem) (L : Matrix (Fin n) (Fin n) ℚ)
    (draws : ℕ → Fin n → ℚ) (s : SolverState) : SolverState × List ℚ :=
  (s, roundTrials n p L draws)

/-- Control states of LPSolver::solve: the solve label, the findcore
label, the rounding label, the complete label, and the returned state. -/
inductive Phase
  | solveLP
  | findCore
  | rounding
  | complete
  | done
deriving DecidableEq

/-- Orchestrator state: current control state, the consecutive
cut-generation failure counter succConstraintFail, and a counter of
findcore attempts indexing the oracle streams. -/
structure OrchState where
  phase : Phase
  fails : ℕ
  t : ℕ
deriving DecidableEq

/-- Embedding of the control flow of LPSolver::solve (lines 257-380),
with the emptiness of the t-th separation core and of the t-th generated
cut supplied as boolean oracle streams (nonPSDcore is randomized and
findConstraint is outside the reviewed file).  The fatal exit paths of
the LP engine are not modelled; the solve label always reaches findcore. -/
def orchStep (coreEmpty cutEmpty : ℕ → Bool) (s : OrchState) : OrchState :=
  match s.phase with
  | Phase.solveLP => { s with phase := Phase.findCore }
  | Phase.findCore =>
    if coreEmpty s.t then { phase := Phase.complete, fails := s.fails, t := s.t + 1 }
    else if cutEmpty s.t then
      if s.fails + 1 = CONSTRAINT_FAIL_LIMIT then
        { phase := Phase.rounding, fails := s.fails + 1, t := s.t + 1 }
      else { phase := Phase.findCore, fails := s.fails + 1, t := s.t + 1 }
    else { phase := Phase.solveLP, fails := 0, t := s.t + 1 }
  | Phase.rounding => { s with phase := Phase.done }
  | Phase.complete => { s with phase := Phase.done }
  | Phase.done => s

/-- Justification for the Nat.sqrt rendering of the source's
floor(sqrt(2*v) + 1/2): both compute the same natural number. -/
theorem floor_sqrt_two_mul_add_half (v : ℕ) :
    ⌊Real.sqrt (2 * v) + 1 / 2⌋ = ((Nat.sqrt (8 * v) + 1) / 2 : ℕ) := by
  set s : ℕ := Nat.sqrt (8 * v) with hsdef
  set k : ℕ := (s + 1) / 2 with hkdef
  have hs1 : s * s ≤ 8 * v := by
    simpa [pow_two] using Nat.sqrt_le' (8 * v)
  have hs2 : 8 * v < (s + 1) * (s + 1) := by
    simpa [pow_two, Nat.succ_eq_add_one] using Nat.lt_succ_sqrt' (8 * v)
  have hsq : Real.sqrt (8 * (v : ℝ)) = 2 * Real.sqrt (2 * v) := by
    have h4 : (8 : ℝ) * v = 2 ^ 2 * (2 * v) := by ring
    rw [h4, Real.sqrt_mul (by positivity), Real.sqrt_sq (by norm_num)]
  have hlow : (s : ℝ) ≤ 2 * Real.sqrt (2 * v) := by
    rw [← hsq]
    have h1 : (s : ℝ) * s ≤ 8 * (v : ℝ) := by exact_mod_cast hs1
    have h2 := Real.sqrt_le_sqrt h1
    rwa [Real.sqrt_mul_self (by positivity : (0 : ℝ) ≤ (s : ℝ))] at h2
  have hhigh : 2 * Real.sqrt (2 * v) < (s : ℝ) + 1 := by
    rw [← hsq]
    have h1 : 8 * (v : ℝ) < ((s : ℝ) + 1) * ((s : ℝ) + 1) := by exact_mod_cast hs2
    have h2 := Real.sqrt_lt_sqrt (by positivity) h1
    rwa [Real.sqrt_mul_self (by positivity : (0 : ℝ) ≤ (s : ℝ) + 1)] at h2
  have hk1 : 2 * k ≤ s + 1 := by omega
  have hk2 : s ≤ 2 * k := by omega
  have hk1R : (2 : ℝ) * k ≤ (s : ℝ) + 1 := by exact_mod_cast hk1
  have hk2R : (s : ℝ) ≤ 2 * k := by exact_mod_cast hk2
  rw [Int.floor_eq_iff]
  constructor
  · push_cast
    linarith
  · push_cast
    linarith

/-- Divisibility fact used to reason about the triangular index formula. -/
theorem two_dvd_mul_pred (a : ℕ) : 2 ∣ a * (a - 1) := by
  match a with
  | 0 => simp
  | b + 1 =>
    simpa [Nat.add_sub_cancel, Nat.mul_comm] using (Nat.even_mul_succ_self b).two_dvd

/-- Evaluation of getLPVar on an ordered in-range pair: no guard fires and
the packed index is returned. -/
theorem getLPVar_of_lt {n x y : ℕ} (h : y < x) (hx : x < n) :
    getLPVar n x y = Except.ok (1 + y + x * (x - 1) / 2) := by
  rw [getLPVar]
  rw [if_neg (by omega : ¬ y = x), dif_neg (by omega : ¬ x < y),
    if_neg (by omega : ¬ (n ≤ y ∨ n ≤ x))]

/-- Evaluation of getLPVar on a reversed pair: the single swap recursion of
the source fires. -/
theorem getLPVar_swap {n x y : ℕ} (h : x < y) :
    getLPVar n x y = getLPVar n y x := by
  rw [getLPVar]
  rw [if_neg (by omega : ¬ y = x), dif_pos h]

/-- Inverse evaluation: getQPVars recovers the ordered pair from its packed
index, with exact natural arithmetic standing in for the double sqrt. -/
theorem getQPVars_packed {n x y : ℕ} (h : y < x) (hx : x < n) :
    getQPVars n (1 + y + x * (x - 1) / 2) = Except.ok (x, y) := by
  obtain ⟨m, rfl⟩ : ∃ m, x = m + 1 := ⟨x - 1, by omega⟩
  have hy : y ≤ m := by omega
  simp only [Nat.add_sub_cancel]
  have hK2 : (m + 1) * m / 2 * 2 = (m + 1) * m := by
    simpa [Nat.add_sub_cancel] using Nat.div_mul_cancel (two_dvd_mul_pred (m + 1))
  set K : ℕ := (m + 1) * m / 2 with hKdef
  set v : ℕ := 1 + y + K with hvdef
  have hL2 : n * (n - 1) / 2 * 2 = n * (n - 1) := Nat.div_mul_cancel (two_dvd_mul_pred n)
  have hbound : ¬ (n * (n - 1) / 2 < v) := by
    have hmul : (m + 2) * (m + 1) ≤ n * (n - 1) :=
      Nat.mul_le_mul (by omega) (by omega)
    have e1 : (m + 2) * (m + 1) = (m + 1) * m + 2 * m + 2 := by ring
    omega
  have h8v : 8 * v = 8 + 8 * y + 4 * ((m + 1) * m) := by omega
  have hslow : 2 * m + 1 ≤ Nat.sqrt (8 * v) := by
    have e1 : (2 * m + 1) ^ 2 = 4 * ((m + 1) * m) + 1 := by ring
    exact Nat.le_sqrt'.mpr (by omega)
  have hshigh : Nat.sqrt (8 * v) < 2 * m + 3 := by
    have e1 : (2 * m + 3) ^ 2 = 4 * ((m + 1) * m) + 8 * m + 9 := by ring
    exact Nat.sqrt_lt'.mpr (by omega)
  have hxrec : (Nat.sqrt (8 * v) + 1) / 2 = m + 1 := by omega
  rw [getQPVars]
  rw [if_neg hbound]
  simp only [hxrec, Nat.add_sub_cancel]
  have hyrec : v - 1 - (m + 1) * m / 2 = y := by omega
  rw [hyrec]
  rw [if_neg (by omega : ¬ (m + 1 ≤ y))]

/-- C1: index-mapper round trip.  For distinct in-range QP indices the
packed index is 1 + min + max*(max-1)/2 independently of argument order,
and getQPVars recovers exactly the ordered pair (max, min). -/
theorem lp_qp_roundTrip (n x y : ℕ) (hxy : x ≠ y) (hx : x < n) (hy : y < n) :
    getLPVar n x y = Except.ok (1 + min x y + max x y * (max x y - 1) / 2) ∧
    getLPVar n x y = getLPVar n y x ∧
    (getLPVar n x y).bind (getQPVars n) = Except.ok (max x y, min x y) := by
  rcases Nat.lt_or_ge x y with hlt | hge
  · have hswap : getLPVar n x y = getLPVar n y x := getLPVar_swap hlt
    have hord : getLPVar n y x = Except.ok (1 + x + y * (y - 1) / 2) :=
      getLPVar_of_lt hlt hy
    have hmin : min x y = x := by omega
    have hmax : max x y = y := by omega
    refine ⟨by rw [hswap, hord, hmin, hmax], hswap, ?_⟩
    rw [hswap, hord, hmin, hmax]
    exact getQPVars_packed hlt hy
  · have hlt : y < x := by omega
    have hord : getLPVar n x y = Except.ok (1 + y + x * (x - 1) / 2) :=
      getLPVar_of_lt hlt hx
    have hswap : getLPVar n y x = getLPVar n x y := getLPVar_swap hlt
    have hmin : min x y = y := by omega
    have hmax : max x y = x := by omega
    refine ⟨by rw [hord, hmin, hmax], hswap.symm, ?_⟩
    rw [hord, hmin, hmax]
    exact getQPVars_packed hlt hx

/-- Witness for lp_qp_roundTrip at n = 5, x = 3, y = 1. -/
theorem lp_qp_roundTrip_witness :
    ((3 : ℕ) ≠ 1 ∧ 3 < 5 ∧ 1 < 5) ∧
    (getLPVar 5 3 1 = Except.ok (1 + min 3 1 + max 3 1 * (max 3 1 - 1) / 2) ∧
     getLPVar 5 3 1 = getLPVar 5 1 3 ∧
     (getLPVar 5 3 1).bind (getQPVars 5) = Except.ok (max 3 1, min 3 1)) :=
  ⟨by omega, lp_qp_roundTrip 5 3 1 (by omega) (by omega) (by omega)⟩

/-- C9: index-mapper error behaviour.  Self pairs always fail, distinct
pairs with an out-of-range index fail, a packed index above n*(n-1)/2
fails, and an in-range packed index whose recovered pair violates y < x
fails.  All four operations are pure, so a failing call modifies nothing. -/
theorem indexMapper_errors (n : ℕ) :
    (∀ x, isError (getLPVar n x x) = true) ∧
    (∀ x y, x ≠ y → n ≤ x ∨ n ≤ y → isError (getLPVar n x y) = true) ∧
    (∀ v, n * (n - 1) / 2 < v → isError (getQPVars n v) = true) ∧
    (∀ v, v ≤ n * (n - 1) / 2 →
      (Nat.sqrt (8 * v) + 1) / 2 ≤
        v - 1 - (Nat.sqrt (8 * v) + 1) / 2 * ((Nat.sqrt (8 * v) + 1) / 2 - 1) / 2 →
      isError (getQPVars n v) = true) := by
  refine ⟨?_, ?_, ?_, ?_⟩
  · intro x
    rw [getLPVar, if_pos rfl]
    rfl
  · intro x y hxy hrange
    rcases Nat.lt_or_ge x y with hlt | hge
    · rw [getLPVar_swap hlt, getLPVar]
      rw [if_neg (by omega : ¬ x = y), dif_neg (by omega : ¬ y < x),
        if_pos (by omega : n ≤ x ∨ n ≤ y)]
      rfl
    · have hlt : y < x := by omega
      rw [getLPVar]
      rw [if_neg (by omega : ¬ y = x), dif_neg (by omega : ¬ x < y),
        if_pos (by omega : n ≤ y ∨ n ≤ x)]
      rfl
  · intro v hv
    rw [getQPVars, if_pos hv]
    rfl
  · intro v hv hyx
    rw [getQPVars, if_neg (by omega : ¬ (n * (n - 1) / 2 < v))]
    simp only []
    rw [if_pos hyx]
    rfl

/-- Witness for indexMapper_errors at n = 3 with concrete failing inputs:
a self pair, an out-of-range pair, a packed index above n*(n-1)/2 = 3, and
the packed index 0 whose recovered pair is (0, 0). -/
theorem indexMapper_errors_witness :
    isError (getLPVar 3 2 2) = true ∧
    isError (getLPVar 3 5 1) = true ∧
    isError (getQPVars 3 4) = true ∧
    isError (getQPVars 3 0) = true :=
  ⟨(indexMapper_errors 3).1 2,
   (indexMapper_errors 3).2.1 5 1 (by omega) (by omega),
   (indexMapper_errors 3).2.2.1 4 (by norm_num),
   (indexMapper_errors 3).2.2.2 0 (by norm_num) (by norm_num)⟩

/-- C6: bound validity.  The constructor's initial upper bound dominates
the evaluator's score on every sign vector. -/
theorem initUpperBound_valid (n : ℕ) (p : QProblem) (s : ℕ → ℚ)
    (hs : ∀ i, i < n → s i = 1 ∨ s i = -1) :
    score n p s ≤ initUpperBound n p := by
  unfold score initUpperBound
  refine add_le_add_left (Finset.sum_le_sum ?_) _
  intro i hi
  refine Finset.sum_le_sum ?_
  intro j hj
  have habsi : |s i| = 1 := by
    rcases hs i (Finset.mem_range.mp hi) with h | h <;> simp [h]
  have habsj : |s j| = 1 := by
    rcases hs j (Finset.mem_Ico.mp hj).2 with h | h <;> simp [h]
  calc p.coeffs i j * s i * s j ≤ |p.coeffs i j * s i * s j| := le_abs_self _
    _ = |p.coeffs i j| := by rw [abs_mul, abs_mul, habsi, habsj, mul_one, mul_one]

/-- Witness for initUpperBound_valid at n = 2 with unit coefficients and
the all-minus-one sign vector. -/
theorem initUpperBound_valid_witness :
    (∀ i, i < 2 → boundWitnessSign i = 1 ∨ boundWitnessSign i = -1) ∧
    score 2 boundWitnessProblem boundWitnessSign ≤ initUpperBound 2 boundWitnessProblem :=
  ⟨by decide, initUpperBound_valid 2 boundWitnessProblem boundWitnessSign (by decide)⟩

/-- Bridge between the packed index mapper and the 0-based array subscript
lpIdx0: for distinct in-range indices, getLPVar returns 1 + lpIdx0. -/
theorem getLPVar_eq_lpIdx0 {n a b : ℕ} (hab : a ≠ b) (ha : a < n) (hb : b < n) :
    getLPVar n a b = Except.ok (1 + lpIdx0 a b) := by
  rcases Nat.lt_or_ge a b with hlt | hge
  · have hmin : min a b = a := by omega
    have hmax : max a b = b := by omega
    rw [getLPVar_swap hlt, getLPVar_of_lt hlt hb]
    simp only [lpIdx0, hmin, hmax]
    rw [add_assoc]
  · have hlt : b < a := by omega
    have hmin : min a b = b := by omega
    have hmax : max a b = a := by omega
    rw [getLPVar_of_lt hlt ha]
    simp only [lpIdx0, hmin, hmax]
    rw [add_assoc]

/-- The all-zero relaxation point induces the identity correlation matrix
on every index list. -/
theorem getSubmatrix_zero_eq_one (S : List ℕ) :
    getSubmatrix (fun _ => 0) S = 1 := by
  ext i j
  by_cases h : i = j <;> simp [getSubmatrix, Matrix.one_apply, h]

/-- The identity matrix is PSD within the tolerance. -/
theorem PSDwithin_identity (k : ℕ) :
    PSDwithin PSD_EIGEN_TOL (1 : Matrix (Fin k) (Fin k) ℚ) := by
  intro u
  have h1 : (1 : Matrix (Fin k) (Fin k) ℚ) + PSD_EIGEN_TOL • 1 =
      (1 + PSD_EIGEN_TOL) • 1 := by rw [add_smul, one_smul]
  rw [h1, Matrix.smul_mulVec_assoc, Matrix.one_mulVec, Matrix.dotProduct_smul]
  have h2 : 0 ≤ Matrix.dotProduct u u := by
    simp only [Matrix.dotProduct]
    exact Finset.sum_nonneg fun i _ => mul_self_nonneg (u i)
  have h3 : (0 : ℚ) ≤ 1 + PSD_EIGEN_TOL := by norm_num [PSD_EIGEN_TOL]
  rw [smul_eq_mul]
  exact mul_nonneg h3 h2

/-- C7 counterexample: at the all-zero relaxation point the constant-true
oracle is the correct PSD check (every induced submatrix is the identity),
the separation procedure returns the empty core, and the COMPLETE-path
extraction sets coordinate 1 to lround(0) = 0, which is not a sign. -/
theorem completeBestSol_not_sign :
    (∀ S : List ℕ, (fun _ => true : List ℕ → Bool) S = true ↔
        PSDwithin PSD_EIGEN_TOL (getSubmatrix (fun _ => 0) S)) ∧
    nonPSDcore (fun _ => true) oracleWitnessOrder = [] ∧
    completeBestSol (fun _ => 0) 1 = 0 ∧
    ¬ (completeBestSol (fun _ => 0) 1 = 1 ∨ completeBestSol (fun _ => 0) 1 = -1) := by
  have hval : completeBestSol (fun _ => 0) 1 = 0 := by
    have h0 : lround 0 = 0 := by
      unfold lround
      norm_num
    simp [completeBestSol, h0]
  refine ⟨?_, rfl, hval, ?_⟩
  · intro S
    rw [getSubmatrix_zero_eq_one S]
    simp [PSDwithin_identity]
  · rw [hval]
    norm_num

/-- C7 (amended): the COMPLETE-path extraction pins coordinate 0 to +1,
and sets every coordinate i in 1..n-1 to lround of the relaxation value
of the pair (0, i), the nearest integer with halves rounded away from
zero; when that value lies in [-1, 1] the coordinate lies in {-1, 0, +1}
(and it is the nearest sign only when the value is at least 1/2 in
absolute value). -/
theorem completeBestSol_spec (sol : ℕ → ℚ) (i : ℕ) :
    completeBestSol sol 0 = 1 ∧
    (1 ≤ i → completeBestSol sol i = ((lround (sol (lpIdx0 0 i)) : ℤ) : ℚ)) ∧
    (1 ≤ i → -1 ≤ sol (lpIdx0 0 i) → sol (lpIdx0 0 i) ≤ 1 →
      completeBestSol sol i = -1 ∨ completeBestSol sol i = 0 ∨
        completeBestSol sol i = 1) := by
  refine ⟨rfl, fun hi => by
      unfold completeBestSol
      rw [if_neg (by omega : ¬ i = 0)],
    fun hi hlo hhi => ?_⟩
  set x := sol (lpIdx0 0 i) with hx
  have key : lround x = -1 ∨ lround x = 0 ∨ lround x = 1 := by
    unfold lround
    by_cases h0 : 0 ≤ x
    · rw [if_pos h0]
      have f1 : (0 : ℤ) ≤ ⌊x + 1 / 2⌋ := Int.floor_nonneg.mpr (by linarith)
      have f2 : ⌊x + 1 / 2⌋ < 2 := Int.floor_lt.mpr (by push_cast; linarith)
      omega
    · rw [if_neg h0]
      have f1 : (0 : ℤ) ≤ ⌊-x + 1 / 2⌋ := Int.floor_nonneg.mpr (by linarith)
      have f2 : ⌊-x + 1 / 2⌋ < 2 := Int.floor_lt.mpr (by push_cast; linarith)
      omega
  have hne : i ≠ 0 := by omega
  rcases key with h | h | h
  · refine Or.inl ?_
    simp [completeBestSol, hne, ← hx, h]
  · refine Or.inr (Or.inl ?_)
    simp [completeBestSol, hne, ← hx, h]
  · refine Or.inr (Or.inr ?_)
    simp [completeBestSol, hne, ← hx, h]

/-- Witness for completeBestSol_spec at the constant relaxation value 3/4
and coordinate 1. -/
theorem completeBestSol_spec_witness :
    completeBestSol (fun _ => (3 / 4 : ℚ)) 1 = -1 ∨
    completeBestSol (fun _ => (3 / 4 : ℚ)) 1 = 0 ∨
    completeBestSol (fun _ => (3 / 4 : ℚ)) 1 = 1 :=
  (completeBestSol_spec (fun _ => (3 / 4 : ℚ)) 1).2.2 (by norm_num) (by norm_num)
    (by norm_num)

/-- C8 counterexample: the row with primal value 101 and lower bound 100
has slack 1, which does not exceed the fraction 0.99 of its bound (99),
yet the pruning loop deletes it: the deletion threshold is the absolute
constant 0.99, not a fraction of the row's bound. -/
theorem pruneRows_not_fraction :
    pruneRows [{ prim := 101, lb := 100 }] = [] ∧
    ¬ (CONSTRAINT_REMOVAL_SLACK * (100 : ℚ) < (101 : ℚ) - 100) := by
  constructor
  · have h : CONSTRAINT_REMOVAL_SLACK < (101 : ℚ) - 100 := by
      norm_num [CONSTRAINT_REMOVAL_SLACK]
    simp [pruneRows, h]
  · norm_num [CONSTRAINT_REMOVAL_SLACK]

/-- C8 (amended): on the pruning scan exactly those rows whose slack
(primal value minus lower bound) exceeds the absolute constant
CONSTRAINT_REMOVAL_SLACK = 0.99 are deleted; rows with slack at or below
0.99 are kept, in order. -/
theorem pruneRows_eq_filter (rows : List LPRow) :
    pruneRows rows =
      rows.filter fun r => decide (r.prim - r.lb ≤ CONSTRAINT_REMOVAL_SLACK) := by
  induction rows with
  | nil => rfl
  | cons r rest ih =>
    by_cases h : CONSTRAINT_REMOVAL_SLACK < r.prim - r.lb
    · have hd : decide (r.prim - r.lb ≤ CONSTRAINT_REMOVAL_SLACK) = false :=
        decide_eq_false (not_le.mpr h)
      simp only [pruneRows, if_pos h, List.filter_cons, hd, ih]
      simp
    · have hd : decide (r.prim - r.lb ≤ CONSTRAINT_REMOVAL_SLACK) = true :=
        decide_eq_true (not_lt.mp h)
      simp only [pruneRows, if_neg h, List.filter_cons, hd, ih]
      simp

/-- C5: frame property of the rounding fallback.  roundToSol leaves
bestSol, lowerBound, upperBound and currSol unchanged, and only reports
the evaluator's score of each randomized trial. -/
theorem roundToSol_frame (n : ℕ) (p : QProblem) (L : Matrix (Fin n) (Fin n) ℚ)
    (draws : ℕ → Fin n → ℚ) (s : SolverState) :
    (roundToSol n p L draws s).1.bestSol = s.bestSol ∧
    (roundToSol n p L draws s).1.lowerBound = s.lowerBound ∧
    (roundToSol n p L draws s).1.upperBound = s.upperBound ∧
    (roundToSol n p L draws s).1.currSol = s.currSol ∧
    (roundToSol n p L draws s).2 = roundTrials n p L draws :=
  ⟨rfl, rfl, rfl, rfl, rfl⟩

/-- C4: fallback trigger and counter reset.  An empty cut increments the
consecutive-failure counter and moves to rounding exactly when the counter
reaches CONSTRAINT_FAIL_LIMIT; a successful cut resets the counter to zero
and returns to the solve state; the rounding state terminates, and from
the rounding or terminated state the solve state is never re-entered. -/
theorem orchStep_fallback (coreEmpty cutEmpty : ℕ → Bool) (s : OrchState) :
    (s.phase = Phase.findCore → coreEmpty s.t = false → cutEmpty s.t = true →
      (orchStep coreEmpty cutEmpty s).fails = s.fails + 1 ∧
      (orchStep coreEmpty cutEmpty s).phase =
        (if s.fails + 1 = CONSTRAINT_FAIL_LIMIT then Phase.rounding
         else Phase.findCore)) ∧
    (s.phase = Phase.findCore → coreEmpty s.t = false → cutEmpty s.t = false →
      (orchStep coreEmpty cutEmpty s).fails = 0 ∧
      (orchStep coreEmpty cutEmpty s).phase = Phase.solveLP) ∧
    (s.phase = Phase.rounding → (orchStep coreEmpty cutEmpty s).phase = Phase.done) ∧
    (s.phase = Phase.rounding ∨ s.phase = Phase.done →
      ∀ k, ((orchStep coreEmpty cutEmpty)^[k] s).phase ≠ Phase.solveLP) := by
  refine ⟨?_, ?_, ?_, ?_⟩
  · intro hp hco hcu
    by_cases h5 : s.fails + 1 = CONSTRAINT_FAIL_LIMIT <;>
      simp [orchStep, hp, hco, hcu, h5]
  · intro hp hco hcu
    simp [orchStep, hp, hco, hcu]
  · intro hp
    simp [orchStep, hp]
  · intro hrd k
    induction k generalizing s with
    | zero =>
      rcases hrd with h | h <;> simp [h]
    | succ k ih =>
      have hstep : (orchStep coreEmpty cutEmpty s).phase = Phase.rounding ∨
          (orchStep coreEmpty cutEmpty s).phase = Phase.done := by
        rcases hrd with h | h <;> simp [orchStep, h]
      rw [Function.iterate_succ_apply]
      exact ih _ hstep

/-- Witness for orchStep_fallback: a fifth consecutive empty cut moves to
rounding with counter 5; a successful cut resets the counter and returns
to the solve state; rounding terminates; three further steps from the
rounding state never reach the solve state. -/
theorem orchStep_fallback_witness :
    ((orchStep (fun _ => false) (fun _ => true)
        { phase := Phase.findCore, fails := 4, t := 0 }).fails = 5 ∧
      (orchStep (fun _ => false) (fun _ => true)
        { phase := Phase.findCore, fails := 4, t := 0 }).phase = Phase.rounding) ∧
    ((orchStep (fun _ => false) (fun _ => false)
        { phase := Phase.findCore, fails := 3, t := 0 }).fails = 0 ∧
      (orchStep (fun _ => false) (fun _ => false)
        { phase := Phase.findCore, fails := 3, t := 0 }).phase = Phase.solveLP) ∧
    (orchStep (fun _ => false) (fun _ => true)
        { phase := Phase.rounding, fails := 5, t := 1 }).phase = Phase.done ∧
    ((orchStep (fun _ => false) (fun _ => true))^[3]
        { phase := Phase.rounding, fails := 5, t := 1 }).phase ≠ Phase.solveLP := by
  have h1 := (orchStep_fallback (fun _ => false) (fun _ => true)
    { phase := Phase.findCore, fails := 4, t := 0 }).1 rfl rfl rfl
  have h2 := (orchStep_fallback (fun _ => false) (fun _ => false)
    { phase := Phase.findCore, fails := 3, t := 0 }).2.1 rfl rfl rfl
  have h3 := (orchStep_fallback (fun _ => false) (fun _ => true)
    { phase := Phase.rounding, fails := 5, t := 1 }).2.2.1 rfl
  have h4 := (orchStep_fallback (fun _ => false) (fun _ => true)
    { phase := Phase.rounding, fails := 5, t := 1 }).2.2.2 (Or.inl rfl) 3
  refine ⟨⟨h1.1, ?_⟩, h2, h3, h4⟩
  rw [h1.2]
  norm_num [CONSTRAINT_FAIL_LIMIT]

/-- The empty index list induces the 0-by-0 matrix, which is trivially PSD
within the tolerance. -/
theorem PSDwithin_nil (sol : ℕ → ℚ) :
    PSDwithin PSD_EIGEN_TOL (getSubmatrix sol []) := by
  intro u
  simp [Matrix.dotProduct]

/-- A singleton index list induces the 1-by-1 matrix with entry 1, which is
PSD within the tolerance. -/
theorem PSDwithin_singleton (sol : ℕ → ℚ) (a : ℕ) :
    PSDwithin PSD_EIGEN_TOL (getSubmatrix sol [a]) := by
  have h1 : getSubmatrix sol [a] = 1 := by
    ext i j
    have hi := i.isLt
    have hj := j.isLt
    simp only [List.length_singleton] at hi hj
    have hij : i = j := Fin.ext (by omega)
    simp [getSubmatrix, hij, Matrix.one_apply]
  rw [h1]
  exact PSDwithin_identity _

/-- When the growth phase stops with some core, that core failed the PSD
check and is an ordered sublist of the already accepted rows followed by
the pool. -/
theorem growPhase_some (psd : List ℕ → Bool) :
    ∀ rest core c, growPhase psd core rest = some c →
      psd c = false ∧ c.Sublist (core ++ rest) := by
  intro rest
  induction rest with
  | nil =>
    intro core c h
    simp [growPhase] at h
  | cons r rs ih =>
    intro core c h
    simp only [growPhase] at h
    by_cases hp : psd (core ++ [r]) = true
    · rw [if_pos hp] at h
      obtain ⟨h1, h2⟩ := ih (core ++ [r]) c h
      refine ⟨h1, ?_⟩
      have he : core ++ [r] ++ rs = core ++ r :: rs := by simp
      rwa [he] at h2
    · rw [if_neg hp] at h
      have hc : c = core ++ [r] := (Option.some.inj h).symm
      subst hc
      refine ⟨by simpa using hp, ?_⟩
      refine List.Sublist.append_left ?_ core
      exact List.cons_sublist_cons.mpr (List.nil_sublist rs)

/-- When the growth phase exhausts the pool (returning none), the union of
the accepted rows and the pool passed the PSD check, provided the accepted
part was empty or passing on entry (as it always is in nonPSDcore). -/
theorem growPhase_none (psd : List ℕ → Bool) :
    ∀ rest core, (core = [] ∨ psd core = true) → growPhase psd core rest = none →
      psd (core ++ rest) = true ∨ core ++ rest = [] := by
  intro rest
  induction rest with
  | nil =>
    intro core hpre _
    rcases hpre with h | h
    · right; simp [h]
    · left; simpa using h
  | cons r rs ih =>
    intro core hpre h
    simp only [growPhase] at h
    by_cases hp : psd (core ++ [r]) = true
    · rw [if_pos hp] at h
      have hres := ih (core ++ [r]) (Or.inr hp) h
      have he : core ++ [r] ++ rs = core ++ r :: rs := by simp
      rw [he] at hres
      exact hres
    · rw [if_neg hp] at h
      exact absurd h (by simp)

/-- The shrink phase never turns a failing core into a passing one: its
result still fails the PSD check. -/
theorem shrinkPhase_psd_false (psd : List ℕ → Bool)
    (hperm : ∀ S T : List ℕ, S.Perm T → psd S = psd T) :
    ∀ k core, psd core = false → psd (shrinkPhase psd k core) = false := by
  intro k
  induction k with
  | zero =>
    intro core h
    simpa [shrinkPhase] using h
  | succ k ih =>
    intro core h
    cases core with
    | nil => simpa [shrinkPhase] using h
    | cons r rest =>
      simp only [shrinkPhase]
      by_cases hp : psd rest = true
      · rw [if_pos hp]
        refine ih _ ?_
        rw [hperm _ _ (List.perm_append_singleton r rest)]
        exact h
      · rw [if_neg hp]
        refine ih _ ?_
        simpa using hp

/-- Invariant of the shrink phase: with k untested front rows U and kept
back rows K, every kept row is essential (its removal makes the check
pass), and this property carries to the final core. -/
theorem shrinkPhase_minimal_aux (psd : List ℕ → Bool)
    (hperm : ∀ S T : List ℕ, S.Perm T → psd S = psd T)
    (hmono : ∀ S T : List ℕ, S.Sublist T → psd T = true → psd S = true) :
    ∀ k U K, U.length = k → (U ++ K).Nodup →
      (∀ e ∈ K, psd ((U ++ K).erase e) = true) →
      ∀ e ∈ shrinkPhase psd k (U ++ K),
        psd ((shrinkPhase psd k (U ++ K)).erase e) = true := by
  intro k
  induction k with
  | zero =>
    intro U K hU hnd hK e he
    have hUnil : U = [] := List.length_eq_zero.mp hU
    subst hUnil
    have h1 := hK e (by simpa [shrinkPhase] using he)
    simpa [shrinkPhase] using h1
  | succ k ih =>
    intro U K hU hnd hK
    obtain ⟨u, U2, rfl⟩ : ∃ u U2, U = u :: U2 := by
      cases U with
      | nil => simp at hU
      | cons a as => exact ⟨a, as, rfl⟩
    have hform : (u :: U2) ++ K = u :: (U2 ++ K) := rfl
    rw [hform] at hnd hK ⊢
    have hu_not : u ∉ U2 ++ K := (List.nodup_cons.mp hnd).1
    simp only [shrinkPhase]
    by_cases hp : psd (U2 ++ K) = true
    · rw [if_pos hp]
      have hassoc : (U2 ++ K) ++ [u] = U2 ++ (K ++ [u]) := by simp
      have hpm2 : (U2 ++ (K ++ [u])).Perm (u :: (U2 ++ K)) := by
        rw [← hassoc]
        exact List.perm_append_singleton u (U2 ++ K)
      rw [hassoc]
      refine ih U2 (K ++ [u]) (by simpa using hU) (hpm2.symm.nodup hnd) ?_
      intro e he
      rcases List.mem_append.mp he with heK | heu
      · have hold : psd ((u :: (U2 ++ K)).erase e) = true := hK e heK
        rw [hperm _ _ (hpm2.erase e)]
        exact hold
      · have he2 : e = u := by simpa using heu
        rw [he2]
        have herase : (U2 ++ (K ++ [u])).erase u = U2 ++ K := by
          rw [← hassoc, List.erase_append_right _ hu_not, List.erase_cons_head,
            List.append_nil]
        rw [herase]
        exact hp
    · rw [if_neg hp]
      refine ih U2 K (by simpa using hU) (List.Nodup.of_cons hnd) ?_
      intro e he
      have heUK : e ∈ U2 ++ K := List.mem_append_right U2 he
      have hu_ne : u ≠ e := fun hh => hu_not (hh ▸ heUK)
      have hold : psd ((u :: (U2 ++ K)).erase e) = true := hK e he
      have hcons : (u :: (U2 ++ K)).erase e = u :: ((U2 ++ K).erase e) :=
        List.erase_cons_tail (by simp [hu_ne])
      refine hmono _ _ ?_ hold
      rw [hcons]
      exact List.sublist_cons_self _ _

/-- C2: separation correctness of the PSD oracle.  For any relaxation
point, any pop order covering all n rows, and any boolean PSD check that
agrees with PSD-within-tolerance of the induced correlation submatrix and
is invariant under reordering of the rows, a non-empty core returned by
nonPSDcore induces a submatrix that is not PSD within the tolerance
(equivalently, its smallest eigenvalue is below -PSD_EIGEN_TOL), and an
empty return means the full n-by-n correlation matrix is PSD within the
tolerance. -/
theorem nonPSDcore_separation (n : ℕ) (sol : ℕ → ℚ) (psd : List ℕ → Bool)
    (order : List ℕ) (horder : order.Perm (List.range n))
    (heq : ∀ S : List ℕ,
      psd S = true ↔ PSDwithin PSD_EIGEN_TOL (getSubmatrix sol S))
    (hperm : ∀ S T : List ℕ, S.Perm T → psd S = psd T) :
    (nonPSDcore psd order ≠ [] →
      ¬ PSDwithin PSD_EIGEN_TOL (getSubmatrix sol (nonPSDcore psd order))) ∧
    (nonPSDcore psd order = [] →
      PSDwithin PSD_EIGEN_TOL (getSubmatrix sol (List.range n))) := by
  have hnil : psd [] = true := (heq []).mpr (PSDwithin_nil sol)
  constructor
  · intro hne hPSD
    rcases hgrow : growPhase psd [] order with _ | c
    · exact hne (by simp [nonPSDcore, hgrow])
    · have h1 := growPhase_some psd order [] c hgrow
      have hfalse : psd (nonPSDcore psd order) = false := by
        simp only [nonPSDcore, hgrow]
        exact shrinkPhase_psd_false psd hperm c.length c h1.1
      have htrue : psd (nonPSDcore psd order) = true := (heq _).mpr hPSD
      rw [htrue] at hfalse
      exact absurd hfalse (by simp)
  · intro hempty
    rcases hgrow : growPhase psd [] order with _ | c
    · have hres := growPhase_none psd order [] (Or.inl rfl) hgrow
      have horderpsd : psd order = true := by
        rcases hres with h1 | h1
        · simpa using h1
        · have hord : order = [] := by simpa using h1
          rw [hord]
          exact hnil
      have : psd (List.range n) = true := by
        rw [← hperm _ _ horder]
        exact horderpsd
      exact (heq _).mp this
    · have h1 := growPhase_some psd order [] c hgrow
      have hfalse : psd (nonPSDcore psd order) = false := by
        simp only [nonPSDcore, hgrow]
        exact shrinkPhase_psd_false psd hperm c.length c h1.1
      rw [hempty, hnil] at hfalse
      exact absurd hfalse (by simp)

/-- C3: inclusion-minimality of a returned core.  Under the same oracle
correctness hypotheses plus monotonicity of the PSD check under taking
sublists (a principal submatrix of a PSD-within-tolerance matrix is again
PSD within tolerance), removing any single element of the returned core
yields an index set whose induced submatrix is PSD within the
tolerance. -/
theorem nonPSDcore_minimality (n : ℕ) (sol : ℕ → ℚ) (psd : List ℕ → Bool)
    (order : List ℕ) (horder : order.Perm (List.range n))
    (heq : ∀ S : List ℕ,
      psd S = true ↔ PSDwithin PSD_EIGEN_TOL (getSubmatrix sol S))
    (hperm : ∀ S T : List ℕ, S.Perm T → psd S = psd T)
    (hmono : ∀ S T : List ℕ, S.Sublist T → psd T = true → psd S = true) :
    ∀ e ∈ nonPSDcore psd order,
      PSDwithin PSD_EIGEN_TOL
        (getSubmatrix sol ((nonPSDcore psd order).erase e)) := by
  intro e he
  rcases hgrow : growPhase psd [] order with _ | c
  · rw [nonPSDcore, hgrow] at he
    simp at he
  · have h1 := growPhase_some psd order [] c hgrow
    have hcsub : c.Sublist order := by simpa using h1.2
    have hond : order.Nodup := horder.symm.nodup (List.nodup_range n)
    have hcnd : c.Nodup := List.Nodup.sublist hcsub hond
    have haux := shrinkPhase_minimal_aux psd hperm hmono c.length c [] rfl
      (by simpa using hcnd) (by simp)
    have hcc : c ++ [] = c := List.append_nil c
    rw [hcc] at haux
    rw [nonPSDcore, hgrow] at he ⊢
    exact (heq _).mp (haux e he)

/-- C10: every non-empty core returned by nonPSDcore has at least two
elements, because the 1-by-1 correlation submatrix [[1]] is always PSD
within the tolerance, so neither phase can stop at a singleton. -/
theorem nonPSDcore_atLeastTwo (sol : ℕ → ℚ) (psd : List ℕ → Bool)
    (order : List ℕ)
    (heq : ∀ S : List ℕ,
      psd S = true ↔ PSDwithin PSD_EIGEN_TOL (getSubmatrix sol S))
    (hperm : ∀ S T : List ℕ, S.Perm T → psd S = psd T) :
    nonPSDcore psd order ≠ [] → 2 ≤ (nonPSDcore psd order).length := by
  intro hne
  rcases hgrow : growPhase psd [] order with _ | c
  · exact absurd (by simp [nonPSDcore, hgrow]) hne
  · have h1 := growPhase_some psd order [] c hgrow
    have hfalse : psd (nonPSDcore psd order) = false := by
      simp only [nonPSDcore, hgrow]
      exact shrinkPhase_psd_false psd hperm c.length c h1.1
    cases hcase : nonPSDcore psd order with
    | nil => exact absurd hcase hne
    | cons a tl =>
      cases tl with
      | nil =>
        have hsing : psd [a] = true := (heq [a]).mpr (PSDwithin_singleton sol a)
        rw [hcase, hsing] at hfalse
        exact absurd hfalse (by simp)
      | cons b tl2 => simp

/-- The constant-2 relaxation point induces on every index list the matrix
with unit diagonal and all off-diagonal entries 2. -/
theorem getSubmatrix_two (S : List ℕ) :
    getSubmatrix oracleWitnessSol S =
      Matrix.of fun i j : Fin S.length => if i = j then (1 : ℚ) else 2 := rfl

/-- A matrix with unit diagonal and off-diagonal entries 2 of size at
least 2 is not PSD within the tolerance: the vector e0 - e1 gives the
quadratic form value 2*PSD_EIGEN_TOL - 2 < 0. -/
theorem not_PSDwithin_two (k : ℕ) (hk : 2 ≤ k) :
    ¬ PSDwithin PSD_EIGEN_TOL
      (Matrix.of fun i j : Fin k => if i = j then (1 : ℚ) else 2) := by
  intro h
  have h0 : (0 : ℕ) < k := by omega
  have h1 : (1 : ℕ) < k := by omega
  set A : Matrix (Fin k) (Fin k) ℚ :=
    Matrix.of fun i j : Fin k => if i = j then (1 : ℚ) else 2 with hA
  set M : Matrix (Fin k) (Fin k) ℚ := A + PSD_EIGEN_TOL • 1 with hM
  set i0 : Fin k := ⟨0, h0⟩ with hi0
  set i1 : Fin k := ⟨1, h1⟩ with hi1
  have hne : i0 ≠ i1 := by
    simp [hi0, hi1, Fin.ext_iff]
  set u : Fin k → ℚ := fun j => if j = i0 then 1 else if j = i1 then -1 else 0 with hu
  have hM_apply : ∀ i j, M i j =
      (if i = j then (1 : ℚ) else 2) + PSD_EIGEN_TOL * (if i = j then 1 else 0) := by
    intro i j
    simp [hM, hA, Matrix.add_apply, Matrix.smul_apply, Matrix.one_apply, smul_eq_mul]
  have hsum : ∀ f : Fin k → ℚ, (∀ j, j ≠ i0 → j ≠ i1 → f j = 0) →
      ∑ j, f j = f i0 + f i1 := by
    intro f hf
    rw [← Finset.sum_subset (Finset.subset_univ ({i0, i1} : Finset (Fin k)))]
    · exact Finset.sum_pair hne
    · intro j _ hj
      simp only [Finset.mem_insert, Finset.mem_singleton] at hj
      push_neg at hj
      exact hf j hj.1 hj.2
  have hmv : ∀ i, M.mulVec u i = M i i0 - M i i1 := by
    intro i
    have he : M.mulVec u i = ∑ j, M i j * u j := by
      simp [Matrix.mulVec, Matrix.dotProduct]
    rw [he, hsum _ ?_]
    · simp only [hu, if_neg (Ne.symm hne), if_true]
      ring
    · intro j hj0 hj1
      simp [hu, hj0, hj1]
  have hform : Matrix.dotProduct u (M.mulVec u) =
      (M i0 i0 - M i0 i1) - (M i1 i0 - M i1 i1) := by
    have he : Matrix.dotProduct u (M.mulVec u) = ∑ j, u j * M.mulVec u j := by
      simp [Matrix.dotProduct]
    rw [he, hsum _ ?_]
    · rw [hmv i0, hmv i1]
      simp only [hu, if_neg (Ne.symm hne), if_true]
      ring
    · intro j hj0 hj1
      simp [hu, hj0, hj1]
  have hval := h u
  rw [hform] at hval
  rw [hM_apply i0 i0, hM_apply i0 i1, hM_apply i1 i0, hM_apply i1 i1] at hval
  rw [if_pos rfl, if_pos rfl, if_neg hne, if_neg hne, if_neg (Ne.symm hne),
    if_neg (Ne.symm hne)] at hval
  norm_num [PSD_EIGEN_TOL] at hval

/-- The length-based witness oracle is invariant under permutations. -/
theorem oracleWitnessPsd_perm :
    ∀ S T : List ℕ, S.Perm T → oracleWitnessPsd S = oracleWitnessPsd T := by
  intro S T h
  simp [oracleWitnessPsd, h.length_eq]

/-- The length-based witness oracle is monotone under sublists. -/
theorem oracleWitnessPsd_mono :
    ∀ S T : List ℕ, S.Sublist T →
      oracleWitnessPsd T = true → oracleWitnessPsd S = true := by
  intro S T h ht
  have hlen := h.length_le
  simp only [oracleWitnessPsd, decide_eq_true_eq] at ht ⊢
  omega

/-- The length-based witness oracle is the correct PSD check for the
constant-2 relaxation point. -/
theorem oracleWitnessPsd_heq :
    ∀ S : List ℕ, oracleWitnessPsd S = true ↔
      PSDwithin PSD_EIGEN_TOL (getSubmatrix oracleWitnessSol S) := by
  intro S
  constructor
  · intro h
    simp only [oracleWitnessPsd, decide_eq_true_eq] at h
    match S, h with
    | [], _ => exact PSDwithin_nil _
    | [a], _ => exact PSDwithin_singleton _ a
  · intro h
    by_contra hfalse
    have hlen : 2 ≤ S.length := by
      simp only [oracleWitnessPsd, decide_eq_true_eq] at hfalse
      omega
    exact not_PSDwithin_two S.length hlen (getSubmatrix_two S ▸ h)

/-- Witness for nonPSDcore_separation: with the constant-2 relaxation
point on two rows the oracle run returns the core [0, 1], whose induced
matrix is not PSD within the tolerance. -/
theorem nonPSDcore_separation_witness :
    nonPSDcore oracleWitnessPsd oracleWitnessOrder ≠ [] ∧
    ¬ PSDwithin PSD_EIGEN_TOL (getSubmatrix oracleWitnessSol
        (nonPSDcore oracleWitnessPsd oracleWitnessOrder)) :=
  ⟨by decide,
   (nonPSDcore_separation 2 oracleWitnessSol oracleWitnessPsd oracleWitnessOrder
      (by decide) oracleWitnessPsd_heq oracleWitnessPsd_perm).1 (by decide)⟩

/-- Witness for nonPSDcore_minimality: the returned core [0, 1] contains 0
and erasing 0 leaves a PSD-within-tolerance singleton submatrix. -/
theorem nonPSDcore_minimality_witness :
    0 ∈ nonPSDcore oracleWitnessPsd oracleWitnessOrder ∧
    PSDwithin PSD_EIGEN_TOL (getSubmatrix oracleWitnessSol
      ((nonPSDcore oracleWitnessPsd oracleWitnessOrder).erase 0)) :=
  ⟨by decide,
   nonPSDcore_minimality 2 oracleWitnessSol oracleWitnessPsd oracleWitnessOrder
      (by decide) oracleWitnessPsd_heq oracleWitnessPsd_perm oracleWitnessPsd_mono
      0 (by decide)⟩

/-- Witness for nonPSDcore_atLeastTwo: the returned core [0, 1] is
non-empty and has two elements. -/
theorem nonPSDcore_atLeastTwo_witness :
    nonPSDcore oracleWitnessPsd oracleWitnessOrder ≠ [] ∧
    2 ≤ (nonPSDcore oracleWitnessPsd oracleWitnessOrder).length :=
  ⟨by decide,
   nonPSDcore_atLeastTwo oracleWitnessSol oracleWitnessPsd oracleWitnessOrder
      oracleWitnessPsd_heq oracleWitnessPsd_perm (by decide)⟩

end CLQO
